import Mathlib

/-!
Verification of the running-stitch utilities of
`src/lib/stitches/running_stitch.py` (inkStitch).

The Python module provides four entry points:

* `bean_stitch(stitches, repeats)` – the thread build-up transform;
* `running_stitch(points, stitch_length, tolerance)` – the
  length-constrained stitch walker;
* `split_segment_even_n`, `split_segment_even_dist`,
  `split_segment_random_phase` – the three segment splitters.

`bean_stitch` is pure list manipulation and is embedded over an arbitrary
element type.  The geometric functions are embedded over points with real
coordinates; the external collaborators (shapely's `simplify`, the
deterministic PRNG) are modelled as explicit parameters, following the
interfaces the module relies on.
-/

/-! ## BeanStitchExpander (`bean_stitch`) -/

/-- One `new_stitches.extend(new_stitches[-2:])` step of `bean_stitch`:
append a copy of the (at most) last two elements of the list. -/
def extendLastTwo {α : Type} (l : List α) : List α :=
  l ++ l.drop (l.length - 2)

/-- The `for stitch in stitches` loop of `bean_stitch`.  State: the remaining
stitches, the cyclic index `repeat_list_pos` into `repeats`, and the
accumulated `new_stitches`.  Each iteration appends the stitch, performs
`repeats[repeat_list_pos]` extend-last-two steps, and advances the cyclic
index (wrapping to `0` at the end of the pattern).  The source indexes
`repeats[repeat_list_pos]` directly (a crash on an empty pattern, which the
spec declares undefined); `List.getD` with default `0` agrees with it
whenever `repeats` is non-empty and the index stays in range. -/
def beanLoop {α : Type} (repeats : List ℕ) : List α → ℕ → List α → List α
  | [], _, acc => acc
  | s :: rest, pos, acc =>
      beanLoop repeats rest (if pos + 1 = repeats.length then 0 else pos + 1)
        (extendLastTwo^[repeats.getD pos 0] (acc ++ [s]))

/-- Embedding of `bean_stitch(stitches, repeats)`: if there are fewer than two stitches the
input is returned unchanged; otherwise the output is seeded with
`stitches[0]` (`new_stitches = [stitches[0]]`, i.e. `stitches.take 1`) and
the main loop runs over all stitches. -/
def bean_stitch {α : Type} (stitches : List α) (repeats : List ℕ) : List α :=
  if stitches.length < 2 then stitches
  else beanLoop repeats stitches 0 (stitches.take 1)

lemma extendLastTwo_length {α : Type} (l : List α) (h : 2 ≤ l.length) :
    (extendLastTwo l).length = l.length + 2 := by
  simp only [extendLastTwo, List.length_append, List.length_drop]
  omega

lemma extendLastTwo_iter_length {α : Type} (r : ℕ) (l : List α) (h : 2 ≤ l.length) :
    (extendLastTwo^[r] l).length = l.length + 2 * r := by
  induction r generalizing l with
  | zero => simp
  | succ n ih =>
      rw [Function.iterate_succ_apply, ih (extendLastTwo l) (by rw [extendLastTwo_length l h]; omega),
        extendLastTwo_length l h]
      ring

lemma extendLastTwo_iter_append {α : Type} (r : ℕ) (l : List α) :
    ∃ t, extendLastTwo^[r] l = l ++ t := by
  induction r generalizing l with
  | zero => exact ⟨[], by simp⟩
  | succ n ih =>
      obtain ⟨t, ht⟩ := ih (extendLastTwo l)
      exact ⟨l.drop (l.length - 2) ++ t, by
        rw [Function.iterate_succ_apply, ht, extendLastTwo, List.append_assoc]⟩

lemma beanLoop_append {α : Type} (repeats : List ℕ) :
    ∀ (rest : List α) (pos : ℕ) (acc : List α), ∃ t, beanLoop repeats rest pos acc = acc ++ t := by
  intro rest
  induction rest with
  | nil => exact fun pos acc => ⟨[], by simp [beanLoop]⟩
  | cons s rest ih =>
      intro pos acc
      obtain ⟨t₁, ht₁⟩ := extendLastTwo_iter_append (repeats.getD pos 0) (acc ++ [s])
      obtain ⟨t₂, ht₂⟩ := ih (if pos + 1 = repeats.length then 0 else pos + 1)
        (extendLastTwo^[repeats.getD pos 0] (acc ++ [s]))
      exact ⟨s :: t₁ ++ t₂, by rw [beanLoop, ht₂, ht₁]; simp⟩

lemma getD_singleton_zero : ∀ pos : ℕ, ([0] : List ℕ).getD pos 0 = 0 := by
  intro pos
  cases pos with
  | zero => rfl
  | succ n => rfl

lemma beanLoop_zero_repeats {α : Type} :
    ∀ (rest : List α) (pos : ℕ) (acc : List α), beanLoop [0] rest pos acc = acc ++ rest := by
  intro rest
  induction rest with
  | nil => simp [beanLoop]
  | cons s rest ih =>
      intro pos acc
      rw [beanLoop, getD_singleton_zero]
      simp only [Function.iterate_zero, id_eq]
      rw [ih]
      simp

/-- C1 (counterexample): `bean_stitch` with `repeats = [0]` is *not* the
identity: on the two-stitch input `[0, 1]` it returns `[0, 0, 1]`, because
the output is seeded with `stitches[0]` and the main loop then appends
`stitches[0]` a second time. -/
theorem bean_stitch_zero_not_identity :
    bean_stitch [0, 1] [0] = [0, 0, 1] ∧ bean_stitch [0, 1] [0] ≠ [0, 1] := by
  refine ⟨rfl, fun h => ?_⟩
  have h' : ([0, 0, 1] : List ℕ) = [0, 1] := by
    calc ([0, 0, 1] : List ℕ) = bean_stitch [0, 1] [0] := rfl
    _ = [0, 1] := h
  simp at h'

/-- C1 (amended): for an input with at least two stitches, `bean_stitch`
with `repeats = [0]` returns the input with its first stitch duplicated in
front: `stitches.take 1 ++ stitches`. -/
theorem bean_stitch_zero_repeats {α : Type} (stitches : List α) (h : 2 ≤ stitches.length) :
    bean_stitch stitches [0] = stitches.take 1 ++ stitches := by
  rw [bean_stitch, if_neg (by omega), beanLoop_zero_repeats]

/-- Witness for the amended C1 at a concrete input. -/
theorem bean_stitch_zero_repeats_witness :
    2 ≤ ([10, 20, 30] : List ℕ).length ∧
      bean_stitch [10, 20, 30] [0] = [10, 20, 30].take 1 ++ [10, 20, 30] :=
  ⟨by decide, bean_stitch_zero_repeats [10, 20, 30] (by decide)⟩

lemma wrap_eq_mod (pos m : ℕ) (h : pos < m) :
    (if pos + 1 = m then 0 else pos + 1) = (pos + 1) % m := by
  by_cases hc : pos + 1 = m
  · rw [if_pos hc, hc, Nat.mod_self]
  · rw [if_neg hc, Nat.mod_eq_of_lt (by omega)]

lemma beanLoop_length {α : Type} (repeats : List ℕ) (hm : repeats ≠ []) :
    ∀ (rest : List α) (pos : ℕ) (acc : List α), pos < repeats.length → 1 ≤ acc.length →
      (beanLoop repeats rest pos acc).length
        = acc.length
          + ∑ i ∈ Finset.range rest.length,
              (1 + 2 * repeats.getD ((pos + i) % repeats.length) 0) := by
  intro rest
  induction rest with
  | nil => intro pos acc _ _; simp [beanLoop]
  | cons s rest ih =>
      intro pos acc hpos hacc
      have hm' : 0 < repeats.length := List.length_pos.mpr hm
      rw [beanLoop]
      have hlen2 : 2 ≤ (acc ++ [s]).length := by simp; omega
      have hstep : (if pos + 1 = repeats.length then 0 else pos + 1) < repeats.length := by
        by_cases hc : pos + 1 = repeats.length
        · rw [if_pos hc]; exact hm'
        · rw [if_neg hc]; omega
      rw [ih _ _ hstep
          (by rw [extendLastTwo_iter_length _ _ hlen2]; simp; omega),
        extendLastTwo_iter_length _ _ hlen2]
      rw [wrap_eq_mod pos repeats.length hpos]
      have hsum :
          ∑ i ∈ Finset.range rest.length,
              (1 + 2 * repeats.getD (((pos + 1) % repeats.length + i) % repeats.length) 0)
            = ∑ i ∈ Finset.range rest.length,
                (1 + 2 * repeats.getD ((pos + (i + 1)) % repeats.length) 0) := by
        refine Finset.sum_congr rfl fun i _ => ?_
        rw [Nat.mod_add_mod, show pos + 1 + i = pos + (i + 1) by omega]
      rw [hsum]
      rw [List.length_cons, Finset.sum_range_succ']
      have hpos0 : (pos + 0) % repeats.length = pos := by
        rw [Nat.add_zero, Nat.mod_eq_of_lt hpos]
      rw [hpos0]
      simp only [List.length_append, List.length_singleton]
      ring

/-- C8: for at least two stitches and a non-empty repeat pattern, the output
length of `bean_stitch` is `1 + ∑ i < n, (1 + 2 * repeats[i % m])` (the seed
point plus, per input stitch, its own copy and `2r` extra points for its
cyclically assigned repeat count `r`); an input with fewer than two stitches
is returned unchanged. -/
theorem bean_stitch_length {α : Type} (stitches : List α) (repeats : List ℕ)
    (hr : repeats ≠ []) :
    (2 ≤ stitches.length →
        (bean_stitch stitches repeats).length
          = 1 + ∑ i ∈ Finset.range stitches.length,
              (1 + 2 * repeats.getD (i % repeats.length) 0))
    ∧ (stitches.length < 2 → bean_stitch stitches repeats = stitches) := by
  constructor
  · intro h2
    have hne : stitches ≠ [] := by
      intro h; rw [h] at h2; simp at h2
    rw [bean_stitch, if_neg (by omega)]
    rw [beanLoop_length repeats hr stitches 0 (stitches.take 1)
        (List.length_pos.mpr hr) (by simp [List.length_take]; omega)]
    simp only [List.length_take, zero_add]
    congr 1
    omega
  · intro h2
    rw [bean_stitch, if_pos h2]

/-- Witness for C8 at a concrete input: `bean_stitch [5,6,7] [1,2]` has
`1 + (1+2·1) + (1+2·2) + (1+2·1) = 12` points. -/
theorem bean_stitch_length_witness :
    ([1, 2] : List ℕ) ≠ [] ∧ 2 ≤ ([5, 6, 7] : List ℕ).length ∧
      (bean_stitch [5, 6, 7] [1, 2]).length
        = 1 + ∑ i ∈ Finset.range ([5, 6, 7] : List ℕ).length,
            (1 + 2 * ([1, 2] : List ℕ).getD (i % ([1, 2] : List ℕ).length) 0) :=
  ⟨by decide, by decide, (bean_stitch_length [5, 6, 7] [1, 2] (by decide)).1 (by decide)⟩

lemma extendLastTwo_replicate {α : Type} (n : ℕ) (a : α) (h : 2 ≤ n) :
    extendLastTwo (List.replicate n a) = List.replicate (n + 2) a := by
  rw [extendLastTwo, List.length_replicate, List.drop_replicate]
  rw [show n - (n - 2) = 2 by omega, ← List.replicate_add]

lemma extendLastTwo_iter_replicate {α : Type} (r n : ℕ) (a : α) (h : 2 ≤ n) :
    extendLastTwo^[r] (List.replicate n a) = List.replicate (n + 2 * r) a := by
  induction r generalizing n with
  | zero => simp
  | succ k ih =>
      rw [Function.iterate_succ_apply, extendLastTwo_replicate n a h,
        ih (n + 2) (by omega)]
      congr 1
      ring

/-- C10: with at least two stitches and a non-empty pattern, the output of
`bean_stitch` begins with `2 + 2 * repeats[0]` consecutive copies of the
first stitch: the seed point, the main loop's re-append of `stitches[0]`,
and `repeats[0]` duplications of that (degenerate) pair. -/
theorem bean_stitch_first_pair {α : Type} (s0 : α) (rest : List α) (repeats : List ℕ)
    (_hr : repeats ≠ []) (hrest : rest ≠ []) :
    (bean_stitch (s0 :: rest) repeats).take (2 + 2 * repeats.getD 0 0)
      = List.replicate (2 + 2 * repeats.getD 0 0) s0 := by
  have h2 : 2 ≤ (s0 :: rest).length := by
    cases rest with
    | nil => exact absurd rfl hrest
    | cons b l => simp
  rw [bean_stitch, if_neg (by omega)]
  rw [show (s0 :: rest).take 1 = [s0] by rfl]
  rw [beanLoop]
  have hrepl : extendLastTwo^[repeats.getD 0 0] ([s0] ++ [s0])
      = List.replicate (2 + 2 * repeats.getD 0 0) s0 := by
    rw [show [s0] ++ [s0] = List.replicate 2 s0 by rfl,
      extendLastTwo_iter_replicate _ 2 s0 le_rfl, Nat.add_comm 2 (2 * repeats.getD 0 0)]
  obtain ⟨t, ht⟩ := beanLoop_append repeats rest
    (if 0 + 1 = repeats.length then 0 else 0 + 1)
    (extendLastTwo^[repeats.getD 0 0] ([s0] ++ [s0]))
  rw [ht, hrepl]
  exact List.take_left' (by simp)

/-- Witness for C10 at a concrete input. -/
theorem bean_stitch_first_pair_witness :
    ([2] : List ℕ) ≠ [] ∧ ([20, 30] : List ℕ) ≠ [] ∧
      (bean_stitch (10 :: [20, 30]) [2]).take (2 + 2 * ([2] : List ℕ).getD 0 0)
        = List.replicate (2 + 2 * ([2] : List ℕ).getD 0 0) 10 :=
  ⟨by decide, by decide, bean_stitch_first_pair 10 [20, 30] [2] (by decide) (by decide)⟩

/-! ## Geometry: points and vectors

The Python module works with inkStitch `Point` values (pairs of real
coordinates supporting subtraction, scaled addition, `length` and `unit`,
exact equality) and shapely line strings.  `Pt` embeds that data model. -/

/-- A 2D point / vector: an ordered pair of real coordinates. -/
@[ext]
structure Pt where
  x : ℝ
  y : ℝ

instance : Inhabited Pt := ⟨⟨0, 0⟩⟩

noncomputable instance : DecidableEq Pt := fun _ _ => Classical.propDecidable _

/-- Componentwise point addition (`p + q`). -/
def Pt.add (p q : Pt) : Pt := ⟨p.x + q.x, p.y + q.y⟩

/-- Componentwise point subtraction (`p - q`), giving a vector. -/
def Pt.sub (p q : Pt) : Pt := ⟨p.x - q.x, p.y - q.y⟩

/-- Scaling of a vector by a real factor (`c * v`). -/
def Pt.smul (c : ℝ) (v : Pt) : Pt := ⟨c * v.x, c * v.y⟩

/-- Euclidean length of a vector (`v.length()`). -/
noncomputable def Pt.length (v : Pt) : ℝ := Real.sqrt (v.x ^ 2 + v.y ^ 2)

/-- Unit vector in the direction of `v` (`v.unit()`). -/
noncomputable def Pt.unit (v : Pt) : Pt := ⟨v.x / v.length, v.y / v.length⟩

/-- Euclidean distance between two points
(`shgeo.Point(a).distance(shgeo.Point(b))`; also the length of the two-point
line string `shgeo.LineString((a, b))`). -/
noncomputable def ptDist (a b : Pt) : ℝ := (b.sub a).length

/-- Affine interpolation `a + t * (b - a)` along the segment from `a` to
`b`. -/
def lerp (a b : Pt) (t : ℝ) : Pt := a.add (Pt.smul t (b.sub a))

/-- Embedding of `shgeo.LineString((a, b)).interpolate(x, normalized=False)`: the point at
arc distance `x` along the two-point segment.  Distances beyond the segment
length clamp to `b`; negative distances are measured backwards from the end
of the segment, clamping at `a`. -/
noncomputable def interpolate (a b : Pt) (x : ℝ) : Pt :=
  lerp a b ((if x < 0 then max (ptDist a b + x) 0 else min x (ptDist a b)) / ptDist a b)

/-- Embedding of `shgeo.LineString((a, b)).interpolate(t, normalized=True)`: normalized
interpolation, i.e. interpolation at arc distance `t * length`. -/
noncomputable def interpolateNormalized (a b : Pt) (t : ℝ) : Pt :=
  interpolate a b (t * ptDist a b)

lemma ptDist_nonneg (a b : Pt) : 0 ≤ ptDist a b := Real.sqrt_nonneg _

lemma ptDist_eq_zero_iff (a b : Pt) : ptDist a b = 0 ↔ a = b := by
  rw [ptDist, Pt.length, Real.sqrt_eq_zero']
  constructor
  · intro h
    have hx2 : ((b.sub a).x) ^ 2 = 0 :=
      le_antisymm (by nlinarith [sq_nonneg (b.sub a).y]) (sq_nonneg _)
    have hy2 : ((b.sub a).y) ^ 2 = 0 :=
      le_antisymm (by nlinarith [sq_nonneg (b.sub a).x]) (sq_nonneg _)
    have hx := sq_eq_zero_iff.mp hx2
    have hy := sq_eq_zero_iff.mp hy2
    simp only [Pt.sub] at hx hy
    ext
    · linarith
    · linarith
  · intro h
    rw [h]
    simp [Pt.sub]

lemma ptDist_pos {a b : Pt} (hab : a ≠ b) : 0 < ptDist a b :=
  lt_of_le_of_ne (ptDist_nonneg a b) fun h => hab ((ptDist_eq_zero_iff a b).mp h.symm)

lemma lerp_self (a : Pt) (t : ℝ) : lerp a a t = a := by
  simp [lerp, Pt.add, Pt.smul, Pt.sub]

lemma lerp_zero (a b : Pt) : lerp a b 0 = a := by
  simp [lerp, Pt.add, Pt.smul]

lemma lerp_ne_left {a b : Pt} (hab : a ≠ b) {t : ℝ} (ht : t ≠ 0) : lerp a b t ≠ a := by
  intro h
  apply hab
  have hx' : a.x + t * (b.x - a.x) = a.x := by
    have := congrArg Pt.x h
    simpa only [lerp, Pt.add, Pt.smul, Pt.sub] using this
  have hy' : a.y + t * (b.y - a.y) = a.y := by
    have := congrArg Pt.y h
    simpa only [lerp, Pt.add, Pt.smul, Pt.sub] using this
  have hx : t * (b.x - a.x) = 0 := by linear_combination hx'
  have hy : t * (b.y - a.y) = 0 := by linear_combination hy'
  rcases mul_eq_zero.mp hx with h' | h'
  · exact absurd h' ht
  · rcases mul_eq_zero.mp hy with h'' | h''
    · exact absurd h'' ht
    · ext <;> linarith

lemma lerp_ne_right {a b : Pt} (hab : a ≠ b) {t : ℝ} (ht : t ≠ 1) : lerp a b t ≠ b := by
  intro h
  apply hab
  have hx' : a.x + t * (b.x - a.x) = b.x := by
    have := congrArg Pt.x h
    simpa only [lerp, Pt.add, Pt.smul, Pt.sub] using this
  have hy' : a.y + t * (b.y - a.y) = b.y := by
    have := congrArg Pt.y h
    simpa only [lerp, Pt.add, Pt.smul, Pt.sub] using this
  have hx : (t - 1) * (b.x - a.x) = 0 := by linear_combination hx'
  have hy : (t - 1) * (b.y - a.y) = 0 := by linear_combination hy'
  have ht' : t - 1 ≠ 0 := fun h' => ht (by linarith)
  rcases mul_eq_zero.mp hx with h' | h'
  · exact absurd h' ht'
  · rcases mul_eq_zero.mp hy with h'' | h''
    · exact absurd h'' ht'
    · ext <;> linarith

lemma interpolateNormalized_eq_lerp (a b : Pt) {t : ℝ} (h0 : 0 ≤ t) (h1 : t ≤ 1) :
    interpolateNormalized a b t = lerp a b t := by
  by_cases hab : a = b
  · rw [hab, interpolateNormalized, interpolate, lerp_self, lerp_self]
  · have hL : 0 < ptDist a b := ptDist_pos hab
    rw [interpolateNormalized, interpolate]
    rw [if_neg (by push_neg; exact mul_nonneg h0 hL.le)]
    rw [min_eq_left (by nlinarith)]
    rw [mul_div_cancel_right₀ t hL.ne']

/-! ## SegmentSplitter

The deterministic PRNG is an external collaborator (`..utils.prng`): a seed
string deterministically yields streams of uniform floats in `[0, 1)`.  Each
splitter is therefore parametrised directly by the draws it consumes: an
optional stream `ℕ → ℝ` in place of `random_seed` (`prng.nUniformFloats`),
and for the random-phase splitter the first "phase" draw `u0` together with
the default stream `u` (`prng.iterUniformFloats`). -/

/-- Embedding of `split_segment_even_n(a, b, segments, jitter_sigma, random_seed)`:
returns `[]` for `segments <= 1`; otherwise splits at fractional positions
`k / segments` for `k = 1 .. segments - 1`, optionally jittered by
`(draw * 2 - 1) * jitter_sigma / segments`, sorted, and interpolated along
the line from `a` to `b`. -/
noncomputable def split_segment_even_n (a b : Pt) (segments : ℤ)
    (jitter_sigma : ℝ) (randomSeed : Option (ℕ → ℝ)) : List Pt :=
  if segments ≤ 1 then []
  else
    let splits : List ℝ :=
      (List.range' 1 (segments.toNat - 1)).map fun k : ℕ => (k : ℝ) / (segments : ℝ)
    let splits :=
      match randomSeed with
      | none => splits
      | some u => splits.mapIdx fun i s => s + (u i * 2 - 1) * (jitter_sigma / (segments : ℝ))
    (splits.mergeSort fun s t => decide (s ≤ t)).map (interpolateNormalized a b)

/-- Embedding of `split_segment_even_dist(a, b, max_length, jitter_sigma, random_seed)`:
computes `segments = ceil(distance(a, b) / max_length)` and delegates to
`split_segment_even_n`. -/
noncomputable def split_segment_even_dist (a b : Pt) (max_length jitter_sigma : ℝ)
    (randomSeed : Option (ℕ → ℝ)) : List Pt :=
  split_segment_even_n a b ⌈ptDist a b / max_length⌉ jitter_sigma randomSeed

/-- The `for x in prng.iterUniformFloats(random_seed)` loop of
`split_segment_random_phase`: keep advancing `progress` by
`length * (1 + length_sigma * (x - 0.5) * 2)` and collecting it, stopping
(exclusive) as soon as `progress >= distance`.  The unbounded Python
iteration is modelled with a fuel parameter. -/
noncomputable def phaseLoop (llen lsig : ℝ) (u : ℕ → ℝ) (distance : ℝ) :
    ℕ → ℕ → ℝ → List ℝ
  | 0, _, _ => []
  | fuel + 1, i, progress =>
      let progress' := progress + llen * (1 + lsig * (u i - 0.5) * 2)
      if distance ≤ progress' then []
      else progress' :: phaseLoop llen lsig u distance fuel (i + 1) progress'

/-- The list `splits` built by `split_segment_random_phase`: the initial
phase offset `length * u0`, then the loop's offsets; empty as soon as the
initial offset reaches the segment length. -/
noncomputable def randomPhaseSplits (llen lsig u0 : ℝ) (u : ℕ → ℝ) (distance : ℝ)
    (fuel : ℕ) : List ℝ :=
  if distance ≤ llen * u0 then []
  else llen * u0 :: phaseLoop llen lsig u distance fuel 0 (llen * u0)

/-- Embedding of `split_segment_random_phase(a, b, length, length_sigma, random_seed)`:
interpolates the collected offsets (non-normalized) along the segment from
`a` to `b`. -/
noncomputable def split_segment_random_phase (a b : Pt) (llen lsig u0 : ℝ)
    (u : ℕ → ℝ) (fuel : ℕ) : List Pt :=
  (randomPhaseSplits llen lsig u0 u (ptDist a b) fuel).map (interpolate a b)

lemma pairwise_lt_map_div (l : List ℕ) (c : ℝ) (hc : 0 < c)
    (hl : List.Pairwise (fun a b : ℕ => a < b) l) :
    List.Pairwise (fun s t : ℝ => s < t) (l.map fun k : ℕ => (k : ℝ) / c) := by
  induction l with
  | nil => simp
  | cons a l ih =>
      rw [List.map_cons, List.pairwise_cons]
      rw [List.pairwise_cons] at hl
      refine ⟨?_, ih hl.2⟩
      intro s hs
      rw [List.mem_map] at hs
      obtain ⟨b, hb, rfl⟩ := hs
      exact (div_lt_div_iff_of_pos_right hc).mpr (by exact_mod_cast hl.1 b hb)

lemma evenSplits_sorted (m : ℤ) (h : 2 ≤ m) :
    List.Pairwise (fun s t : ℝ => s < t)
      ((List.range' 1 (m.toNat - 1)).map fun k : ℕ => (k : ℝ) / (m : ℝ)) := by
  have hm : (0 : ℝ) < (m : ℝ) := by exact_mod_cast (by omega : (0 : ℤ) < m)
  exact pairwise_lt_map_div _ _ hm (List.pairwise_lt_range' 1 (m.toNat - 1))

lemma split_even_n_noseed_eq (a b : Pt) (segments : ℤ) (jitter_sigma : ℝ)
    (h : 2 ≤ segments) :
    split_segment_even_n a b segments jitter_sigma none
      = (List.range' 1 (segments.toNat - 1)).map
          fun k : ℕ => lerp a b ((k : ℝ) / (segments : ℝ)) := by
  have hm : (0 : ℝ) < (segments : ℝ) := by exact_mod_cast (by omega : (0 : ℤ) < segments)
  rw [split_segment_even_n, if_neg (by omega)]
  show (((List.range' 1 (segments.toNat - 1)).map
        fun k : ℕ => (k : ℝ) / (segments : ℝ)).mergeSort
      fun s t => decide (s ≤ t)).map (interpolateNormalized a b) = _
  rw [List.mergeSort_of_sorted
    ((evenSplits_sorted segments h).imp fun hst => decide_eq_true hst.le)]
  rw [List.map_map]
  refine List.map_congr_left fun k hk => ?_
  rw [List.mem_range'_1] at hk
  have hk1 : (1 : ℝ) ≤ (k : ℝ) := by exact_mod_cast hk.1
  have hk2 : (k : ℝ) < (segments : ℝ) := by
    have : k < segments.toNat := by omega
    exact_mod_cast (by omega : (k : ℤ) < segments)
  exact interpolateNormalized_eq_lerp a b (by positivity) (by
    rw [div_le_one hm]; linarith)

/-- C9: `split_segment_even_n` without a seed returns exactly `segments - 1`
points at the fractional positions `k / segments`, `k = 1 .. segments - 1`,
along the line from `a` to `b`, in increasing order of `k`; for
`segments ≤ 1` it returns the empty list. -/
theorem split_even_n_unjittered (a b : Pt) (segments : ℤ) (jitter_sigma : ℝ) :
    (segments ≤ 1 → split_segment_even_n a b segments jitter_sigma none = [])
    ∧ (2 ≤ segments →
        split_segment_even_n a b segments jitter_sigma none
          = (List.range' 1 (segments.toNat - 1)).map
              fun k : ℕ => lerp a b ((k : ℝ) / (segments : ℝ))) := by
  constructor
  · intro h
    rw [split_segment_even_n, if_pos h]
  · exact split_even_n_noseed_eq a b segments jitter_sigma

/-- Witness for C9: with `segments = 4` the three returned points sit at
normalized positions `0.25`, `0.5`, `0.75`, in that order; with
`segments = 1` the result is empty. -/
theorem split_even_n_unjittered_witness :
    (1 : ℤ) ≤ 1 ∧ 2 ≤ (4 : ℤ) ∧
      split_segment_even_n ⟨0, 0⟩ ⟨8, 4⟩ 1 0 none = [] ∧
      split_segment_even_n ⟨0, 0⟩ ⟨8, 4⟩ 4 0 none
        = [lerp ⟨0, 0⟩ ⟨8, 4⟩ 0.25, lerp ⟨0, 0⟩ ⟨8, 4⟩ 0.5, lerp ⟨0, 0⟩ ⟨8, 4⟩ 0.75] := by
  refine ⟨le_rfl, by norm_num, (split_even_n_unjittered ⟨0, 0⟩ ⟨8, 4⟩ 1 0).1 le_rfl, ?_⟩
  rw [(split_even_n_unjittered ⟨0, 0⟩ ⟨8, 4⟩ 4 0).2 (by norm_num)]
  rw [show ((4 : ℤ).toNat - 1) = 3 from rfl,
    show List.range' 1 3 = [1, 2, 3] from rfl]
  simp only [List.map_cons, List.map_nil]
  norm_num

lemma even_n_noseed_props (a b : Pt) (segments : ℤ) (jitter_sigma : ℝ) (hab : a ≠ b) :
    (∀ p ∈ split_segment_even_n a b segments jitter_sigma none, p ≠ a ∧ p ≠ b)
      ∧ ∃ ts : List ℝ, List.Pairwise (fun s t : ℝ => s < t) ts
          ∧ (∀ t ∈ ts, 0 < t ∧ t < 1)
          ∧ split_segment_even_n a b segments jitter_sigma none = ts.map (lerp a b) := by
  by_cases h : segments ≤ 1
  · rw [split_segment_even_n, if_pos h]
    exact ⟨by simp, [], by simp, by simp, by simp⟩
  · have h2 : 2 ≤ segments := by omega
    have hm : (0 : ℝ) < (segments : ℝ) := by exact_mod_cast (by omega : (0 : ℤ) < segments)
    have hts : ∀ t ∈ (List.range' 1 (segments.toNat - 1)).map
        fun k : ℕ => (k : ℝ) / (segments : ℝ), 0 < t ∧ t < 1 := by
      intro t ht
      rw [List.mem_map] at ht
      obtain ⟨k, hk, rfl⟩ := ht
      rw [List.mem_range'_1] at hk
      have hk1 : (1 : ℝ) ≤ (k : ℝ) := by exact_mod_cast hk.1
      have hk2 : (k : ℝ) < (segments : ℝ) := by
        exact_mod_cast (by omega : (k : ℤ) < segments)
      constructor
      · positivity
      · rw [div_lt_one hm]; exact hk2
    have hform := split_even_n_noseed_eq a b segments jitter_sigma h2
    have hmap : split_segment_even_n a b segments jitter_sigma none
        = ((List.range' 1 (segments.toNat - 1)).map
            fun k : ℕ => (k : ℝ) / (segments : ℝ)).map (lerp a b) := by
      rw [hform, List.map_map]
      rfl
    refine ⟨?_, _, evenSplits_sorted segments h2, hts, hmap⟩
    intro p hp
    rw [hmap, List.mem_map] at hp
    obtain ⟨t, ht, rfl⟩ := hp
    obtain ⟨ht0, ht1⟩ := hts t ht
    exact ⟨lerp_ne_left hab ht0.ne', lerp_ne_right hab ht1.ne⟩

lemma phaseLoop_lt (llen lsig : ℝ) (u : ℕ → ℝ) (distance : ℝ) :
    ∀ (fuel i : ℕ) (progress x : ℝ),
      x ∈ phaseLoop llen lsig u distance fuel i progress → x < distance := by
  intro fuel
  induction fuel with
  | zero => intro i progress x hx; simp [phaseLoop] at hx
  | succ n ih =>
      intro i progress x hx
      simp only [phaseLoop] at hx
      by_cases hc : distance ≤ progress + llen * (1 + lsig * (u i - 0.5) * 2)
      · rw [if_pos hc] at hx
        simp at hx
      · rw [if_neg hc] at hx
        rcases List.mem_cons.mp hx with h | h
        · rw [h]; exact not_le.mp hc
        · exact ih (i + 1) _ x h

lemma randomPhaseSplits_lt (llen lsig u0 : ℝ) (u : ℕ → ℝ) (distance : ℝ) (fuel : ℕ) :
    ∀ x ∈ randomPhaseSplits llen lsig u0 u distance fuel, x < distance := by
  intro x hx
  rw [randomPhaseSplits] at hx
  by_cases hc : distance ≤ llen * u0
  · rw [if_pos hc] at hx; simp at hx
  · rw [if_neg hc] at hx
    rcases List.mem_cons.mp hx with h | h
    · rw [h]; exact not_le.mp hc
    · exact phaseLoop_lt llen lsig u distance fuel 0 (llen * u0) x h

lemma interpolate_ne_right {a b : Pt} (hab : a ≠ b) {x : ℝ} (hx : x < ptDist a b) :
    interpolate a b x ≠ b := by
  have hL : 0 < ptDist a b := ptDist_pos hab
  rw [interpolate]
  by_cases hneg : x < 0
  · rw [if_pos hneg]
    refine lerp_ne_right hab ?_
    have hmax : max (ptDist a b + x) 0 < ptDist a b := by
      rcases max_cases (ptDist a b + x) 0 with ⟨h1, _⟩ | ⟨h1, _⟩ <;> rw [h1] <;> linarith
    intro h1
    rw [div_eq_one_iff_eq hL.ne'] at h1
    linarith
  · rw [if_neg hneg]
    rw [min_eq_left hx.le]
    refine lerp_ne_right hab ?_
    intro h1
    rw [div_eq_one_iff_eq hL.ne'] at h1
    linarith

/-- C5 (amended): for a non-degenerate segment (`a ≠ b`), the splitter
invariant holds in this form: `split_segment_even_n` and
`split_segment_even_dist` *without a seed* return strictly interior points
at strictly increasing arc-length positions; `split_segment_random_phase`
(whose phase draw satisfies `u0 ≥ 0`, with `length ≥ 0`) never returns the
far endpoint `b`.  (As stated over arbitrary jitter and seeds the claimed
invariant is false: the random-phase splitter can return the endpoint `a`
itself, see the counterexample.) -/
theorem splitters_interior_increasing (a b : Pt) (segments : ℤ)
    (jitter_sigma max_length llen lsig u0 : ℝ) (u : ℕ → ℝ) (fuel : ℕ) (hab : a ≠ b) :
    ((∀ p ∈ split_segment_even_n a b segments jitter_sigma none, p ≠ a ∧ p ≠ b)
      ∧ ∃ ts : List ℝ, List.Pairwise (fun s t : ℝ => s < t) ts
          ∧ (∀ t ∈ ts, 0 < t ∧ t < 1)
          ∧ split_segment_even_n a b segments jitter_sigma none = ts.map (lerp a b))
    ∧ ((∀ p ∈ split_segment_even_dist a b max_length jitter_sigma none, p ≠ a ∧ p ≠ b)
      ∧ ∃ ts : List ℝ, List.Pairwise (fun s t : ℝ => s < t) ts
          ∧ (∀ t ∈ ts, 0 < t ∧ t < 1)
          ∧ split_segment_even_dist a b max_length jitter_sigma none = ts.map (lerp a b))
    ∧ (0 ≤ llen → 0 ≤ u0 →
        ∀ p ∈ split_segment_random_phase a b llen lsig u0 u fuel, p ≠ b) := by
  refine ⟨even_n_noseed_props a b segments jitter_sigma hab, ?_, ?_⟩
  · simp only [split_segment_even_dist]
    exact even_n_noseed_props a b _ jitter_sigma hab
  · intro _ _ p hp
    rw [split_segment_random_phase, List.mem_map] at hp
    obtain ⟨x, hx, rfl⟩ := hp
    exact interpolate_ne_right hab
      (randomPhaseSplits_lt llen lsig u0 u (ptDist a b) fuel x hx)

/-- C5 (counterexample): with phase draw `u0 = 0`, `split_segment_random_phase`
returns the endpoint `a` itself as its first point (offset `length * 0 = 0`),
so the returned points are not always strictly interior to the segment. -/
theorem splitters_interior_counterexample :
    (⟨0, 0⟩ : Pt) ≠ ⟨1, 0⟩ ∧
      (split_segment_random_phase ⟨0, 0⟩ ⟨1, 0⟩ (1 / 2) 0 0 (fun _ => 1 / 2) 5).head?
        = some ⟨0, 0⟩ := by
  have hd : ptDist ⟨0, 0⟩ ⟨1, 0⟩ = 1 := by
    simp only [ptDist, Pt.sub, Pt.length]
    norm_num
  constructor
  · intro h
    have := congrArg Pt.x h
    norm_num at this
  · rw [split_segment_random_phase, hd, randomPhaseSplits]
    rw [if_neg (by norm_num)]
    rw [List.map_cons, List.head?_cons]
    rw [show (1 : ℝ) / 2 * 0 = 0 by ring]
    rw [interpolate, hd, if_neg (lt_irrefl 0), min_eq_left (by norm_num)]
    norm_num [lerp_zero]

/-- Witness for the amended C5 at a concrete input. -/
theorem splitters_interior_increasing_witness :
    (⟨0, 0⟩ : Pt) ≠ ⟨3, 0⟩ ∧ (0 : ℝ) ≤ 1 ∧ (0 : ℝ) ≤ 0 ∧
      (∀ p ∈ split_segment_random_phase ⟨0, 0⟩ ⟨3, 0⟩ 1 0 0 (fun _ => 0) 2, p ≠ ⟨3, 0⟩) := by
  have hab : (⟨0, 0⟩ : Pt) ≠ ⟨3, 0⟩ := by
    intro h
    have := congrArg Pt.x h
    norm_num at this
  exact ⟨hab, by norm_num, le_rfl,
    (splitters_interior_increasing ⟨0, 0⟩ ⟨3, 0⟩ 2 0 1 1 0 0 (fun _ => 0) 2 hab).2.2
      (by norm_num) le_rfl⟩

/-- C6: `split_segment_random_phase` is empty as soon as the initial phase
offset `length * u0` exceeds the segment length; every collected offset is
strictly below the segment length; and (for `length ≥ 0`, `u0 ≥ 0`) the far
endpoint `b` is never one of the returned points. -/
theorem split_random_phase_bounds (a b : Pt) (llen lsig u0 : ℝ) (u : ℕ → ℝ) (fuel : ℕ) :
    (ptDist a b < llen * u0 → split_segment_random_phase a b llen lsig u0 u fuel = [])
    ∧ (∀ x ∈ randomPhaseSplits llen lsig u0 u (ptDist a b) fuel, x < ptDist a b)
    ∧ (0 ≤ llen → 0 ≤ u0 → b ∉ split_segment_random_phase a b llen lsig u0 u fuel) := by
  refine ⟨?_, randomPhaseSplits_lt llen lsig u0 u (ptDist a b) fuel, ?_⟩
  · intro h
    rw [split_segment_random_phase, randomPhaseSplits, if_pos h.le, List.map_nil]
  · intro hl hu hb
    by_cases hab : a = b
    · rw [split_segment_random_phase, randomPhaseSplits,
        if_pos (by rw [hab, (ptDist_eq_zero_iff b b).mpr rfl]; exact mul_nonneg hl hu),
        List.map_nil] at hb
      simp at hb
    · rw [split_segment_random_phase, List.mem_map] at hb
      obtain ⟨x, hx, hxb⟩ := hb
      exact interpolate_ne_right hab
        (randomPhaseSplits_lt llen lsig u0 u (ptDist a b) fuel x hx) hxb

/-- Witness for C6 at a concrete input. -/
theorem split_random_phase_bounds_witness :
    ptDist ⟨0, 0⟩ ⟨1, 0⟩ < 2 * (9 / 10) ∧
      split_segment_random_phase ⟨0, 0⟩ ⟨1, 0⟩ 2 0 (9 / 10) (fun _ => 0) 3 = [] ∧
      (0 : ℝ) ≤ 2 ∧ (0 : ℝ) ≤ 9 / 10 ∧
      (⟨1, 0⟩ : Pt) ∉ split_segment_random_phase ⟨0, 0⟩ ⟨1, 0⟩ 2 0 (9 / 10) (fun _ => 0) 3 := by
  have hd : ptDist ⟨0, 0⟩ ⟨1, 0⟩ = 1 := by
    simp only [ptDist, Pt.sub, Pt.length]
    norm_num
  refine ⟨by rw [hd]; norm_num,
    (split_random_phase_bounds ⟨0, 0⟩ ⟨1, 0⟩ 2 0 (9 / 10) (fun _ => 0) 3).1
      (by rw [hd]; norm_num),
    by norm_num, by norm_num,
    (split_random_phase_bounds ⟨0, 0⟩ ⟨1, 0⟩ 2 0 (9 / 10) (fun _ => 0) 3).2.2
      (by norm_num) (by norm_num)⟩

/-! ## StitchWalker (`running_stitch`)

`running_stitch` walks the original path section by section, where sections
are delimited by the "important" points — the vertices retained by the
external PathSimplifier (`path.simplify(tolerance, preserve_topology=False)`).
Simplification itself is a black-box collaborator (spec §6): its result is
passed in as the `simplified` coordinate list, assumed (by the interface) to
retain the path's first and last points.  The unbounded inner
`while distance < segment_length` loop is modelled with a fuel parameter:
the Python loop terminates only when `actual_stitch_length` is positive. -/

/-- Polyline length of a point list: `shgeo.LineString(section).length`, the
sum of consecutive point distances. -/
noncomputable def polylineLength : List Pt → ℝ
  | a :: b :: rest => ptDist a b + polylineLength (b :: rest)
  | _ => 0

/-- The important point indices:
`important_points = set(simplified.coords)` and
`important_point_indices = [i for i, point in enumerate(points) if
point.as_tuple() in important_points]` — every index of `points` (in order)
whose coordinate value occurs in the simplified path. -/
noncomputable def importantIndices (points simplified : List Pt) : List ℕ :=
  (List.range points.length).filter fun i => decide (points.getD i ⟨0, 0⟩ ∈ simplified)

/-- The inner `while distance < segment_length` loop: while the pending
distance `d` is strictly below the sub-segment length `L`, emit
`segment_start + distance * segment_direction` and advance `d` by
`actual_stitch_length`; return the emitted stitches and the final pending
distance. -/
noncomputable def walkLoop (segStart dir : Pt) (actual L : ℝ) : ℕ → ℝ → List Pt × ℝ
  | 0, d => ([], d)
  | fuel + 1, d =>
      if d < L then
        let r := walkLoop segStart dir actual L fuel (d + actual)
        (segStart.add (Pt.smul d dir) :: r.1, r.2)
      else ([], d)

/-- The `for segment_end in section[1:]` loop: process the sub-segments
vertex to vertex, running the inner while-loop on each and carrying the
pending distance, decreased by the sub-segment length afterwards
(`distance -= segment_length`). -/
noncomputable def walkSegments (actual : ℝ) (fuel : ℕ) : Pt → ℝ → List Pt → List Pt
  | _, _, [] => []
  | segStart, d, segEnd :: rest =>
      let r := walkLoop segStart (segEnd.sub segStart).unit actual
        ((segEnd.sub segStart).length) fuel d
      r.1 ++ walkSegments actual fuel segEnd (r.2 - (segEnd.sub segStart).length) rest

/-- One iteration of the `for start, end in zip(...)` loop of
`running_stitch`, processing one section `points[start:end+1]`: append the
section's first point unless it already ends the accumulated output
(`if not output or output[-1] != section[0]`); then, if the section is
longer than `stitch_length`, walk it with
`num_stitches = ceil(section_length / stitch_length)` and
`actual_stitch_length = section_length / num_stitches`, the pending distance
starting at `actual_stitch_length`. -/
noncomputable def processSection (stitchLength : ℝ) (fuel : ℕ)
    (output : List Pt) (sec : List Pt) : List Pt :=
  match sec with
  | [] => output
  | p0 :: rest =>
      let output' := if output = [] ∨ output.getLast? ≠ some p0 then output ++ [p0] else output
      let sectionLength := polylineLength (p0 :: rest)
      if stitchLength < sectionLength then
        let actual := sectionLength / ((⌈sectionLength / stitchLength⌉ : ℤ) : ℝ)
        output' ++ walkSegments actual fuel p0 actual rest
      else output'

/-- Embedding of `running_stitch(points, stitch_length, tolerance)`: fewer than two
points give the empty sequence; otherwise the sections between consecutive
important indices are processed in order, and finally the path's last point
`points[-1]` is appended unless it already ends the output.

Faithfulness of the fuel model: the value of this function coincides with
the Python function whenever every inner walk terminates within the fuel —
in particular for positive stitch lengths with sufficient fuel.  When the
Python loop diverges (non-positive `actual_stitch_length`), only each
loop's emitted prefix is faithful; whatever this function appends after a
fuel-exhausted loop, including the final top-up, is a truncation artifact
with no Python counterpart, and no theorem below relies on the returned
value in that regime. -/
noncomputable def running_stitch (fuel : ℕ) (points : List Pt)
    (stitchLength : ℝ) (simplified : List Pt) : List Pt :=
  if points.length < 2 then []
  else
    let idxs := importantIndices points simplified
    let sections := (idxs.zip idxs.tail).map fun se => (points.drop se.1).take (se.2 - se.1 + 1)
    let output := sections.foldl (processSection stitchLength fuel) []
    let lastPt := points.getD (points.length - 1) ⟨0, 0⟩
    if output.getLast? ≠ some lastPt then output ++ [lastPt] else output

lemma processSection_append (stitchLength : ℝ) (fuel : ℕ) (output : List Pt) (sec : List Pt) :
    ∃ t, processSection stitchLength fuel output sec = output ++ t := by
  match sec with
  | [] => exact ⟨[], by simp [processSection]⟩
  | p0 :: rest =>
      rw [processSection]
      by_cases h1 : output = [] ∨ output.getLast? ≠ some p0
      · rw [if_pos h1]
        by_cases h2 : stitchLength < polylineLength (p0 :: rest)
        · rw [if_pos h2]
          exact ⟨_, by rw [List.append_assoc]⟩
        · rw [if_neg h2]
          exact ⟨[p0], rfl⟩
      · rw [if_neg h1]
        by_cases h2 : stitchLength < polylineLength (p0 :: rest)
        · rw [if_pos h2]
          exact ⟨_, rfl⟩
        · rw [if_neg h2]
          exact ⟨[], by rw [List.append_nil]⟩

lemma foldl_processSection_append (stitchLength : ℝ) (fuel : ℕ) :
    ∀ (secs : List (List Pt)) (output : List Pt),
      ∃ t, secs.foldl (processSection stitchLength fuel) output = output ++ t := by
  intro secs
  induction secs with
  | nil => exact fun output => ⟨[], by simp⟩
  | cons sec secs ih =>
      intro output
      obtain ⟨t₁, ht₁⟩ := processSection_append stitchLength fuel output sec
      obtain ⟨t₂, ht₂⟩ := ih (processSection stitchLength fuel output sec)
      exact ⟨t₁ ++ t₂, by rw [List.foldl_cons, ht₂, ht₁, List.append_assoc]⟩

lemma processSection_head_of_nil (stitchLength : ℝ) (fuel : ℕ) (p0 : Pt) (rest : List Pt) :
    (processSection stitchLength fuel [] (p0 :: rest)).head? = some p0 := by
  rw [processSection]
  rw [if_pos (Or.inl rfl)]
  by_cases h2 : stitchLength < polylineLength (p0 :: rest)
  · rw [if_pos h2]
    simp
  · rw [if_neg h2]
    simp

lemma processSection_mem_head (stitchLength : ℝ) (fuel : ℕ) (output : List Pt)
    (p0 : Pt) (rest : List Pt) :
    p0 ∈ processSection stitchLength fuel output (p0 :: rest) := by
  have hbase : p0 ∈ if output = [] ∨ output.getLast? ≠ some p0 then output ++ [p0] else output := by
    by_cases h1 : output = [] ∨ output.getLast? ≠ some p0
    · rw [if_pos h1]
      simp
    · rw [if_neg h1]
      push_neg at h1
      exact List.mem_of_getLast?_eq_some h1.2
  rw [processSection]
  by_cases h2 : stitchLength < polylineLength (p0 :: rest)
  · rw [if_pos h2]
    exact List.mem_append_left _ hbase
  · rw [if_neg h2]
    exact hbase

lemma foldl_processSection_mem (stitchLength : ℝ) (fuel : ℕ) :
    ∀ (secs : List (List Pt)) (output : List Pt) (v : Pt),
      (v ∈ output ∨ ∃ sec ∈ secs, ∃ rest, sec = v :: rest) →
      v ∈ secs.foldl (processSection stitchLength fuel) output := by
  intro secs
  induction secs with
  | nil =>
      intro output v hv
      rcases hv with hv | ⟨sec, hsec, _⟩
      · simpa using hv
      · simp at hsec
  | cons sec secs ih =>
      intro output v hv
      rw [List.foldl_cons]
      rcases hv with hv | ⟨sec', hsec', rest, hrest⟩
      · refine ih _ _ (Or.inl ?_)
        obtain ⟨t, ht⟩ := processSection_append stitchLength fuel output sec
        rw [ht]
        exact List.mem_append_left _ hv
      · rcases List.mem_cons.mp hsec' with h | h
        · refine ih _ _ (Or.inl ?_)
          rw [← h, hrest]
          exact processSection_mem_head stitchLength fuel output v rest
        · exact ih _ _ (Or.inr ⟨sec', h, rest, hrest⟩)

lemma mem_importantIndices {points simplified : List Pt} {i : ℕ} :
    i ∈ importantIndices points simplified
      ↔ i < points.length ∧ points.getD i ⟨0, 0⟩ ∈ simplified := by
  rw [importantIndices, List.mem_filter, List.mem_range, decide_eq_true_eq]

lemma importantIndices_pairwise (points simplified : List Pt) :
    (importantIndices points simplified).Pairwise (· < ·) :=
  List.Pairwise.sublist (List.filter_sublist _) (List.pairwise_lt_range points.length)

lemma importantIndices_head {points simplified : List Pt} (hne : points ≠ [])
    (hf : points.getD 0 ⟨0, 0⟩ ∈ simplified) :
    ∃ l', importantIndices points simplified = 0 :: l' := by
  obtain ⟨n, hn⟩ : ∃ n, points.length = n + 1 := by
    cases points with
    | nil => exact absurd rfl hne
    | cons p ps => exact ⟨ps.length, rfl⟩
  rw [importantIndices, hn, List.range_succ_eq_map]
  rw [List.filter_cons_of_pos (by rw [decide_eq_true_eq]; exact hf)]
  exact ⟨_, rfl⟩

lemma pairwise_lt_getLast? :
    ∀ (l : List ℕ), l.Pairwise (· < ·) → ∀ m ∈ l, (∀ x ∈ l, x ≤ m) → l.getLast? = some m := by
  intro l
  induction l with
  | nil => intro _ m hm; simp at hm
  | cons a l ih =>
      intro hp m hm hb
      match l with
      | [] =>
          simp only [List.mem_singleton] at hm
          rw [hm]
          rfl
      | b :: l' =>
          rw [List.getLast?_cons_cons]
          rw [List.pairwise_cons] at hp
          rcases List.mem_cons.mp hm with h | h
          · exfalso
            have hab : a < b := hp.1 b (by simp)
            have hbm : b ≤ m := hb b (by simp)
            omega
          · exact ih hp.2 m h fun x hx => hb x (List.mem_cons_of_mem a hx)

lemma importantIndices_getLast? {points simplified : List Pt} (h2 : 2 ≤ points.length)
    (hl : points.getD (points.length - 1) ⟨0, 0⟩ ∈ simplified) :
    (importantIndices points simplified).getLast? = some (points.length - 1) := by
  refine pairwise_lt_getLast? _ (importantIndices_pairwise points simplified) _ ?_ ?_
  · exact mem_importantIndices.mpr ⟨by omega, hl⟩
  · intro x hx
    have := (mem_importantIndices.mp hx).1
    omega

lemma mem_zip_fst_or_getLast? :
    ∀ (l : List ℕ) (a : ℕ), a ∈ l → a ∈ (l.zip l.tail).map Prod.fst ∨ l.getLast? = some a := by
  intro l
  induction l with
  | nil => intro a ha; simp at ha
  | cons x l ih =>
      intro a ha
      match l with
      | [] =>
          right
          rw [List.mem_singleton] at ha
          rw [ha]
          rfl
      | y :: l' =>
          rcases List.mem_cons.mp ha with h | h
          · left
            rw [h]
            simp
          · rcases ih a h with h' | h'
            · left
              rw [show ((x :: y :: l').zip (x :: y :: l').tail)
                  = (x, y) :: ((y :: l').zip (y :: l').tail) from rfl]
              rw [List.map_cons]
              exact List.mem_cons_of_mem _ h'
            · right
              rw [List.getLast?_cons_cons]
              exact h'

lemma getLast?_eq_getD {l : List Pt} (h : l ≠ []) :
    l.getLast? = some (l.getD (l.length - 1) ⟨0, 0⟩) := by
  have hlt : l.length - 1 < l.length := by
    have := List.length_pos.mpr h
    omega
  rw [List.getLast?_eq_getElem?, List.getD_eq_getElem?_getD, List.getElem?_eq_getElem hlt]
  rfl

lemma running_stitch_head_last (fuel : ℕ) (points : List Pt) (stitchLength : ℝ)
    (simplified : List Pt) (h2 : 2 ≤ points.length)
    (hf : points.getD 0 ⟨0, 0⟩ ∈ simplified)
    (hl : points.getD (points.length - 1) ⟨0, 0⟩ ∈ simplified) :
    (running_stitch fuel points stitchLength simplified).head? = points.head?
      ∧ (running_stitch fuel points stitchLength simplified).getLast? = points.getLast? := by
  have hne : points ≠ [] := by intro h; rw [h] at h2; simp at h2
  obtain ⟨l', hidxs⟩ := importantIndices_head hne hf
  have hlast := importantIndices_getLast? h2 hl
  have hl'ne : l' ≠ [] := by
    intro h
    rw [h] at hidxs
    rw [hidxs] at hlast
    simp at hlast
    omega
  obtain ⟨j, l'', rfl⟩ : ∃ j l'', l' = j :: l'' := by
    cases l' with
    | nil => exact absurd rfl hl'ne
    | cons j l'' => exact ⟨j, l'', rfl⟩
  obtain ⟨p, ps, rfl⟩ : ∃ p ps, points = p :: ps := by
    cases points with
    | nil => exact absurd rfl hne
    | cons p ps => exact ⟨p, ps, rfl⟩
  have hzip : ((importantIndices (p :: ps) simplified).zip
        (importantIndices (p :: ps) simplified).tail)
      = (0, j) :: ((j :: l'').zip l'') := by
    rw [hidxs]
    rfl
  have hsec0 : ((p :: ps).drop 0).take (j - 0 + 1) = p :: ps.take j := by
    simp [List.take_succ_cons]
  have hbase := processSection_head_of_nil stitchLength fuel p (ps.take j)
  obtain ⟨t, ht⟩ := foldl_processSection_append stitchLength fuel
    (((j :: l'').zip l'').map fun se => ((p :: ps).drop se.1).take (se.2 - se.1 + 1))
    (processSection stitchLength fuel [] (p :: ps.take j))
  have houtput : ((((importantIndices (p :: ps) simplified).zip
          (importantIndices (p :: ps) simplified).tail).map
        fun se => ((p :: ps).drop se.1).take (se.2 - se.1 + 1)).foldl
          (processSection stitchLength fuel) [])
      = processSection stitchLength fuel [] (p :: ps.take j) ++ t := by
    rw [hzip, List.map_cons, hsec0, List.foldl_cons]
    exact ht
  have hhead : ((((importantIndices (p :: ps) simplified).zip
          (importantIndices (p :: ps) simplified).tail).map
        fun se => ((p :: ps).drop se.1).take (se.2 - se.1 + 1)).foldl
          (processSection stitchLength fuel) []).head? = some p := by
    rw [houtput]
    cases hps : processSection stitchLength fuel [] (p :: ps.take j) with
    | nil => rw [hps] at hbase; simp at hbase
    | cons q qs =>
        rw [hps] at hbase
        rw [List.head?_cons] at hbase
        rw [List.cons_append, List.head?_cons]
        exact hbase
  have hlastpt : (p :: ps).getLast? = some ((p :: ps).getD ((p :: ps).length - 1) ⟨0, 0⟩) :=
    getLast?_eq_getD (by simp)
  have key : ∀ out : List Pt, out.head? = some p →
      ((if out.getLast? ≠ some ((p :: ps).getD ((p :: ps).length - 1) ⟨0, 0⟩)
          then out ++ [(p :: ps).getD ((p :: ps).length - 1) ⟨0, 0⟩] else out).head?
        = (p :: ps).head?
      ∧ (if out.getLast? ≠ some ((p :: ps).getD ((p :: ps).length - 1) ⟨0, 0⟩)
          then out ++ [(p :: ps).getD ((p :: ps).length - 1) ⟨0, 0⟩] else out).getLast?
        = (p :: ps).getLast?) := by
    intro out hout
    by_cases hcond : out.getLast? ≠ some ((p :: ps).getD ((p :: ps).length - 1) ⟨0, 0⟩)
    · rw [if_pos hcond]
      constructor
      · cases out with
        | nil => simp at hout
        | cons q qs =>
            rw [List.cons_append, List.head?_cons]
            rw [List.head?_cons] at hout
            rw [hout]
            rfl
      · rw [List.getLast?_concat, hlastpt]
    · rw [if_neg hcond]
      push_neg at hcond
      refine ⟨by rw [hout]; rfl, ?_⟩
      rw [hcond, hlastpt]
  have hrs : running_stitch fuel (p :: ps) stitchLength simplified
      = (if ((((importantIndices (p :: ps) simplified).zip
              (importantIndices (p :: ps) simplified).tail).map
            fun se => ((p :: ps).drop se.1).take (se.2 - se.1 + 1)).foldl
              (processSection stitchLength fuel) []).getLast?
          ≠ some ((p :: ps).getD ((p :: ps).length - 1) ⟨0, 0⟩)
        then ((((importantIndices (p :: ps) simplified).zip
              (importantIndices (p :: ps) simplified).tail).map
            fun se => ((p :: ps).drop se.1).take (se.2 - se.1 + 1)).foldl
              (processSection stitchLength fuel) [])
            ++ [(p :: ps).getD ((p :: ps).length - 1) ⟨0, 0⟩]
        else ((((importantIndices (p :: ps) simplified).zip
              (importantIndices (p :: ps) simplified).tail).map
            fun se => ((p :: ps).drop se.1).take (se.2 - se.1 + 1)).foldl
              (processSection stitchLength fuel) [])) := by
    rw [running_stitch, if_neg (by omega)]
  rw [hrs]
  exact key _ hhead

/-- C3: for valid positive `stitch_length` and a simplifier result
containing the path's first and last coordinates, `running_stitch` on at
least two points starts at the input's first point and ends at its last
point; on fewer than two points it returns the empty sequence. -/
theorem running_stitch_endpoints (fuel : ℕ) (points : List Pt) (stitchLength : ℝ)
    (simplified : List Pt) (_hpos : 0 < stitchLength)
    (hf : points.getD 0 ⟨0, 0⟩ ∈ simplified)
    (hl : points.getD (points.length - 1) ⟨0, 0⟩ ∈ simplified) :
    (2 ≤ points.length →
        (running_stitch fuel points stitchLength simplified).head? = points.head?
      ∧ (running_stitch fuel points stitchLength simplified).getLast? = points.getLast?)
    ∧ (points.length < 2 → running_stitch fuel points stitchLength simplified = []) := by
  constructor
  · intro h2
    exact running_stitch_head_last fuel points stitchLength simplified h2 hf hl
  · intro h2
    rw [running_stitch, if_pos h2]

/-- Witness for C3 at a concrete input. -/
theorem running_stitch_endpoints_witness :
    (0 : ℝ) < 5 ∧
      ([⟨0, 0⟩, ⟨1, 0⟩] : List Pt).getD 0 ⟨0, 0⟩ ∈ ([⟨0, 0⟩, ⟨1, 0⟩] : List Pt) ∧
      ([⟨0, 0⟩, ⟨1, 0⟩] : List Pt).getD (([⟨0, 0⟩, ⟨1, 0⟩] : List Pt).length - 1) ⟨0, 0⟩
        ∈ ([⟨0, 0⟩, ⟨1, 0⟩] : List Pt) ∧
      ((2 ≤ ([⟨0, 0⟩, ⟨1, 0⟩] : List Pt).length →
          (running_stitch 7 [⟨0, 0⟩, ⟨1, 0⟩] 5 [⟨0, 0⟩, ⟨1, 0⟩]).head?
            = ([⟨0, 0⟩, ⟨1, 0⟩] : List Pt).head?
        ∧ (running_stitch 7 [⟨0, 0⟩, ⟨1, 0⟩] 5 [⟨0, 0⟩, ⟨1, 0⟩]).getLast?
            = ([⟨0, 0⟩, ⟨1, 0⟩] : List Pt).getLast?)
      ∧ (([⟨0, 0⟩, ⟨1, 0⟩] : List Pt).length < 2 →
          running_stitch 7 [⟨0, 0⟩, ⟨1, 0⟩] 5 [⟨0, 0⟩, ⟨1, 0⟩] = [])) := by
  refine ⟨by norm_num, by simp, by simp, ?_⟩
  exact running_stitch_endpoints 7 [⟨0, 0⟩, ⟨1, 0⟩] 5 [⟨0, 0⟩, ⟨1, 0⟩]
    (by norm_num) (by simp) (by simp)

/-- C7: every vertex of the original polyline whose coordinate value was
retained by simplification (every "important" point, matched by value)
appears verbatim in the output of `running_stitch`. -/
theorem running_stitch_important_points (fuel : ℕ) (points : List Pt) (stitchLength : ℝ)
    (simplified : List Pt) (h2 : 2 ≤ points.length)
    (hl : points.getD (points.length - 1) ⟨0, 0⟩ ∈ simplified)
    (v : Pt) (hv : v ∈ points) (hvs : v ∈ simplified) :
    v ∈ running_stitch fuel points stitchLength simplified := by
  obtain ⟨i, hi, hgi⟩ := List.mem_iff_getElem.mp hv
  have hgd : points.getD i ⟨0, 0⟩ = v := by rw [List.getD_eq_getElem _ _ hi, hgi]
  have hmem : i ∈ importantIndices points simplified :=
    mem_importantIndices.mpr ⟨hi, by rw [hgd]; exact hvs⟩
  have hlast := importantIndices_getLast? h2 hl
  have hfinal : ∀ out : List Pt,
      (v ∈ out ∨ v = points.getD (points.length - 1) ⟨0, 0⟩) →
      v ∈ (if out.getLast? ≠ some (points.getD (points.length - 1) ⟨0, 0⟩)
            then out ++ [points.getD (points.length - 1) ⟨0, 0⟩] else out) := by
    intro out hv'
    by_cases hcond : out.getLast? ≠ some (points.getD (points.length - 1) ⟨0, 0⟩)
    · rw [if_pos hcond]
      rcases hv' with h | h
      · exact List.mem_append_left _ h
      · exact List.mem_append_right _ (by rw [h]; simp)
    · rw [if_neg hcond]
      push_neg at hcond
      rcases hv' with h | h
      · exact h
      · rw [h]
        exact List.mem_of_getLast?_eq_some hcond
  have hout : v ∈ (((importantIndices points simplified).zip
          (importantIndices points simplified).tail).map
        fun se => (points.drop se.1).take (se.2 - se.1 + 1)).foldl
          (processSection stitchLength fuel) []
      ∨ v = points.getD (points.length - 1) ⟨0, 0⟩ := by
    rcases mem_zip_fst_or_getLast? _ i hmem with hz | hz
    · left
      rw [List.mem_map] at hz
      obtain ⟨se, hse, hse1⟩ := hz
      refine foldl_processSection_mem stitchLength fuel _ [] v (Or.inr ?_)
      refine ⟨(points.drop se.1).take (se.2 - se.1 + 1), List.mem_map_of_mem _ hse, ?_⟩
      have hse1' : se.1 = i := hse1
      rw [hse1']
      rw [List.drop_eq_getElem_cons hi, hgi]
      exact ⟨_, rfl⟩
    · right
      rw [hlast] at hz
      have : i = points.length - 1 := by
        have := Option.some.inj hz
        omega
      rw [← hgd, this]
  rw [running_stitch, if_neg (by omega)]
  exact hfinal _ hout

/-- Witness for C7 at a concrete input. -/
theorem running_stitch_important_points_witness :
    2 ≤ ([⟨0, 0⟩, ⟨1, 0⟩] : List Pt).length ∧
      ([⟨0, 0⟩, ⟨1, 0⟩] : List Pt).getD (([⟨0, 0⟩, ⟨1, 0⟩] : List Pt).length - 1) ⟨0, 0⟩
        ∈ ([⟨0, 0⟩, ⟨1, 0⟩] : List Pt) ∧
      (⟨1, 0⟩ : Pt) ∈ ([⟨0, 0⟩, ⟨1, 0⟩] : List Pt) ∧
      (⟨1, 0⟩ : Pt) ∈ running_stitch 4 [⟨0, 0⟩, ⟨1, 0⟩] 5 [⟨0, 0⟩, ⟨1, 0⟩] :=
  ⟨by simp, by simp, by simp,
    running_stitch_important_points 4 [⟨0, 0⟩, ⟨1, 0⟩] 5 [⟨0, 0⟩, ⟨1, 0⟩]
      (by simp) (by simp) ⟨1, 0⟩ (by simp) (by simp)⟩

lemma walkLoop_zero (segStart dir : Pt) (actual L d : ℝ) :
    walkLoop segStart dir actual L 0 d = ([], d) := rfl

lemma walkLoop_succ (segStart dir : Pt) (actual L : ℝ) (fuel : ℕ) (d : ℝ) :
    walkLoop segStart dir actual L (fuel + 1) d
      = if d < L then
          (segStart.add (Pt.smul d dir) :: (walkLoop segStart dir actual L fuel (d + actual)).1,
            (walkLoop segStart dir actual L fuel (d + actual)).2)
        else ([], d) := by
  rw [walkLoop]

lemma walkSegments_nil (actual : ℝ) (fuel : ℕ) (segStart : Pt) (d : ℝ) :
    walkSegments actual fuel segStart d [] = [] := rfl

lemma walkSegments_cons (actual : ℝ) (fuel : ℕ) (segStart : Pt) (d : ℝ)
    (segEnd : Pt) (rest : List Pt) :
    walkSegments actual fuel segStart d (segEnd :: rest)
      = (walkLoop segStart (segEnd.sub segStart).unit actual
          ((segEnd.sub segStart).length) fuel d).1
        ++ walkSegments actual fuel segEnd
            ((walkLoop segStart (segEnd.sub segStart).unit actual
              ((segEnd.sub segStart).length) fuel d).2 - (segEnd.sub segStart).length) rest := by
  rw [walkSegments]

lemma polylineLength_single (a : Pt) : polylineLength [a] = 0 := rfl

lemma polylineLength_cons (a b : Pt) (rest : List Pt) :
    polylineLength (a :: b :: rest) = ptDist a b + polylineLength (b :: rest) := rfl

lemma walkLoop_nonpos_never_exits (segStart dir : Pt) (actual L : ℝ) (ha : actual ≤ 0) :
    ∀ (fuel : ℕ) (d : ℝ), d < L →
      ((walkLoop segStart dir actual L fuel d).1).length = fuel
        ∧ (walkLoop segStart dir actual L fuel d).2 < L := by
  intro fuel
  induction fuel with
  | zero =>
      intro d hd
      rw [walkLoop_zero]
      exact ⟨rfl, hd⟩
  | succ n ih =>
      intro d hd
      obtain ⟨h1, h2⟩ := ih (d + actual) (by linarith)
      rw [walkLoop_succ, if_pos hd]
      exact ⟨by rw [List.length_cons, h1], h2⟩

lemma processSection_neg_one (fuel : ℕ) :
    processSection (-1) fuel [] [⟨0, 0⟩, ⟨1, 0⟩]
      = ⟨0, 0⟩ :: (walkLoop ⟨0, 0⟩ ⟨1, 0⟩ (-1) 1 fuel (-1)).1 := by
  have hd : ptDist ⟨0, 0⟩ ⟨1, 0⟩ = 1 := by
    simp only [ptDist, Pt.sub, Pt.length]
    norm_num
  have hlen : polylineLength [⟨0, 0⟩, ⟨1, 0⟩] = 1 := by
    rw [polylineLength_cons, polylineLength_single, hd]
    ring
  have hsub : ((⟨1, 0⟩ : Pt).sub ⟨0, 0⟩) = ⟨1, 0⟩ := by
    ext <;> simp [Pt.sub]
  have hlen1 : ((⟨1, 0⟩ : Pt).sub ⟨0, 0⟩).length = 1 := by
    rw [hsub]
    simp only [Pt.length]
    norm_num
  have hunit : ((⟨1, 0⟩ : Pt).sub ⟨0, 0⟩).unit = ⟨1, 0⟩ := by
    rw [Pt.unit, hlen1, hsub]
    ext <;> norm_num
  have hactual : polylineLength [⟨0, 0⟩, ⟨1, 0⟩]
      / ((⌈polylineLength [⟨0, 0⟩, ⟨1, 0⟩] / (-1 : ℝ)⌉ : ℤ) : ℝ) = -1 := by
    rw [hlen]
    rw [show (1 : ℝ) / (-1 : ℝ) = ((-1 : ℤ) : ℝ) by norm_num, Int.ceil_intCast]
    norm_num
  rw [processSection]
  rw [if_pos (by rw [hlen]; norm_num : (-1 : ℝ) < polylineLength [⟨0, 0⟩, ⟨1, 0⟩])]
  rw [if_pos (Or.inl rfl)]
  rw [hactual]
  show ([] ++ [⟨0, 0⟩] ++ walkSegments (-1) fuel ⟨0, 0⟩ (-1) [⟨1, 0⟩])
    = ⟨0, 0⟩ :: (walkLoop ⟨0, 0⟩ ⟨1, 0⟩ (-1) 1 fuel (-1)).1
  rw [walkSegments_cons, hunit, hlen1, walkSegments_nil, List.append_nil]
  rfl

/-- C2 (amended): `running_stitch` performs no validation of
`stitch_length`: a non-positive value is not rejected with any fail-fast
error — the section walk is entered anyway, and with a non-positive
`actual_stitch_length` the inner `while distance < segment_length` loop
never terminates.  In the fuel model this reads: once the loop is entered
(`d < L`), for *every* fuel bound it emits one stitch per unit of fuel and
its exit condition still fails afterwards (the pending distance stays
below the sub-segment length), so the Python loop runs forever; and with
`stitch_length = -1` on the path from `(0,0)` to `(1,0)` the section body
of `running_stitch` reaches exactly this divergent loop (with
`actual_stitch_length = -1`) rather than reporting an input-validation
error.  (`stitch_length = 0` dies differently — a `ZeroDivisionError`
inside the walk at `section_length / stitch_length` — which is likewise
not a fail-fast validation.) -/
theorem running_stitch_no_validation (fuel : ℕ) :
    (∀ (segStart dir : Pt) (actual L d : ℝ), actual ≤ 0 → d < L →
        ((walkLoop segStart dir actual L fuel d).1).length = fuel
          ∧ (walkLoop segStart dir actual L fuel d).2 < L)
    ∧ processSection (-1) fuel [] [⟨0, 0⟩, ⟨1, 0⟩]
        = ⟨0, 0⟩ :: (walkLoop ⟨0, 0⟩ ⟨1, 0⟩ (-1) 1 fuel (-1)).1 :=
  ⟨fun segStart dir actual L d ha hd =>
      walkLoop_nonpos_never_exits segStart dir actual L ha fuel d hd,
    processSection_neg_one fuel⟩

/-- Witness for the amended C2 at concrete values: with
`actual_stitch_length = -1` and fuel `5` the loop has emitted five stitches
and its exit condition still fails. -/
theorem running_stitch_no_validation_witness :
    (((walkLoop ⟨0, 0⟩ ⟨1, 0⟩ (-1) 1 5 (-1)).1).length = 5
        ∧ (walkLoop ⟨0, 0⟩ ⟨1, 0⟩ (-1) 1 5 (-1)).2 < 1)
    ∧ processSection (-1) 5 [] [⟨0, 0⟩, ⟨1, 0⟩]
        = ⟨0, 0⟩ :: (walkLoop ⟨0, 0⟩ ⟨1, 0⟩ (-1) 1 5 (-1)).1 :=
  ⟨(running_stitch_no_validation 5).1 ⟨0, 0⟩ ⟨1, 0⟩ (-1) 1 (-1)
      (by norm_num) (by norm_num),
    (running_stitch_no_validation 5).2⟩

/-- C2 (counterexample): `running_stitch` does not reject the non-positive
`stitch_length = -1`.  On the two-point path from `(0,0)` to `(1,0)` its
section body proceeds into the walk (`num_stitches = ceil(1 / -1) = -1`,
`actual_stitch_length = -1`): the loop's first three iterations emit the
points `(-1,0)`, `(-2,0)`, `(-3,0)` — none of which lies on the path — and
the exit condition still fails afterwards (the pending distance `-4` is
below the sub-segment length `1`), so the code neither fails fast nor
stops walking.  (Only the emitted prefix of the divergent loop is
asserted; nothing is claimed about a returned value, since the Python
function never returns here.) -/
theorem running_stitch_accepts_nonpositive :
    (-1 : ℝ) ≤ 0 ∧
      (walkLoop ⟨0, 0⟩ ⟨1, 0⟩ (-1) 1 3 (-1)).1 = [⟨-1, 0⟩, ⟨-2, 0⟩, ⟨-3, 0⟩] ∧
      (walkLoop ⟨0, 0⟩ ⟨1, 0⟩ (-1) 1 3 (-1)).2 = -4 ∧ (-4 : ℝ) < 1 ∧
      processSection (-1) 3 [] [⟨0, 0⟩, ⟨1, 0⟩]
        = [⟨0, 0⟩, ⟨-1, 0⟩, ⟨-2, 0⟩, ⟨-3, 0⟩] ∧
      (⟨-1, 0⟩ : Pt) ∉ ([⟨0, 0⟩, ⟨1, 0⟩] : List Pt) := by
  have h1 : walkLoop ⟨0, 0⟩ ⟨1, 0⟩ (-1) 1 1 (-3) = ([⟨-3, 0⟩], -4) := by
    rw [walkLoop_succ, if_pos (by norm_num : (-3 : ℝ) < 1), walkLoop_zero]
    rw [show ((⟨0, 0⟩ : Pt).add (Pt.smul (-3) ⟨1, 0⟩)) = ⟨-3, 0⟩ by
      ext <;> simp [Pt.add, Pt.smul]]
    norm_num
  have h2 : walkLoop ⟨0, 0⟩ ⟨1, 0⟩ (-1) 1 2 (-2) = ([⟨-2, 0⟩, ⟨-3, 0⟩], -4) := by
    show walkLoop ⟨0, 0⟩ ⟨1, 0⟩ (-1) 1 (1 + 1) (-2) = ([⟨-2, 0⟩, ⟨-3, 0⟩], -4)
    rw [walkLoop_succ, if_pos (by norm_num : (-2 : ℝ) < 1)]
    rw [show ((-2 : ℝ) + -1) = -3 by norm_num, h1]
    rw [show ((⟨0, 0⟩ : Pt).add (Pt.smul (-2) ⟨1, 0⟩)) = ⟨-2, 0⟩ by
      ext <;> simp [Pt.add, Pt.smul]]
  have h3 : walkLoop ⟨0, 0⟩ ⟨1, 0⟩ (-1) 1 3 (-1) = ([⟨-1, 0⟩, ⟨-2, 0⟩, ⟨-3, 0⟩], -4) := by
    show walkLoop ⟨0, 0⟩ ⟨1, 0⟩ (-1) 1 (2 + 1) (-1) = ([⟨-1, 0⟩, ⟨-2, 0⟩, ⟨-3, 0⟩], -4)
    rw [walkLoop_succ, if_pos (by norm_num : (-1 : ℝ) < 1)]
    rw [show ((-1 : ℝ) + -1) = -2 by norm_num, h2]
    rw [show ((⟨0, 0⟩ : Pt).add (Pt.smul (-1) ⟨1, 0⟩)) = ⟨-1, 0⟩ by
      ext <;> simp [Pt.add, Pt.smul]]
  refine ⟨by norm_num, by rw [h3], by rw [h3], by norm_num, ?_, ?_⟩
  · rw [processSection_neg_one 3, h3]
  · intro h
    rcases List.mem_cons.mp h with h' | h'
    · have := congrArg Pt.x h'
      norm_num at this
    · rw [List.mem_singleton] at h'
      have := congrArg Pt.x h'
      norm_num at this

/-- The point at arc-length position `s` along a polyline: the path
parametrization used to state where the walked stitches lie.  Within the
first sub-segment it is `a + s * unit(b - a)` — syntactically the very
expression `running_stitch` emits — and beyond it the position recurses
with `s` reduced by the first sub-segment's length. -/
noncomputable def pointAt : List Pt → ℝ → Pt
  | [], _ => ⟨0, 0⟩
  | [p], _ => p
  | a :: b :: rest, s =>
      if s ≤ ptDist a b then a.add (Pt.smul s (b.sub a).unit)
      else pointAt (b :: rest) (s - ptDist a b)

lemma polylineLength_nonneg : ∀ l : List Pt, 0 ≤ polylineLength l
  | [] => le_refl 0
  | [_] => le_refl 0
  | a :: b :: rest => by
      rw [polylineLength_cons]
      have h1 := polylineLength_nonneg (b :: rest)
      have h2 := ptDist_nonneg a b
      linarith

lemma natCeil_sub_nat (x : ℝ) (n : ℕ) : ⌈x - (n : ℝ)⌉₊ = ⌈x⌉₊ - n := by
  rw [← Int.ceil_toNat, ← Int.ceil_toNat, Int.ceil_sub_nat]
  omega

lemma pointAt_zero_cons (b : Pt) (rest : List Pt) : pointAt (b :: rest) 0 = b := by
  cases rest with
  | nil => rfl
  | cons c r =>
      rw [pointAt, if_pos (ptDist_nonneg b c)]
      ext <;> simp [Pt.add, Pt.smul]

lemma add_smul_dist_unit (a b : Pt) :
    a.add (Pt.smul (ptDist a b) (b.sub a).unit) = b := by
  by_cases hab : a = b
  · subst hab
    rw [(ptDist_eq_zero_iff a a).mpr rfl]
    ext <;> simp [Pt.add, Pt.smul]
  · have hL : 0 < ptDist a b := ptDist_pos hab
    have hLrfl : (Pt.mk (b.x - a.x) (b.y - a.y)).length = ptDist a b := rfl
    ext
    · simp only [Pt.add, Pt.smul, Pt.unit, Pt.sub, hLrfl]
      field_simp
    · simp only [Pt.add, Pt.smul, Pt.unit, Pt.sub, hLrfl]
      field_simp

lemma pointAt_shift (a b : Pt) (rest : List Pt) {s : ℝ} (hs : ptDist a b ≤ s) :
    pointAt (a :: b :: rest) s = pointAt (b :: rest) (s - ptDist a b) := by
  rw [pointAt]
  by_cases hc : s ≤ ptDist a b
  · rw [if_pos hc]
    have hs' : s = ptDist a b := le_antisymm hc hs
    rw [hs', sub_self, pointAt_zero_cons, add_smul_dist_unit]
  · rw [if_neg hc]

lemma walkLoop_spec (segStart dir : Pt) (actual L : ℝ) (ha : 0 < actual) :
    ∀ (fuel : ℕ) (d : ℝ), ⌈(L - d) / actual⌉₊ ≤ fuel →
      walkLoop segStart dir actual L fuel d
        = ((List.range ⌈(L - d) / actual⌉₊).map
            fun j : ℕ => segStart.add (Pt.smul (d + (j : ℝ) * actual) dir),
          d + (⌈(L - d) / actual⌉₊ : ℝ) * actual) := by
  intro fuel
  induction fuel with
  | zero =>
      intro d hf
      have h0 : ⌈(L - d) / actual⌉₊ = 0 := Nat.le_zero.mp hf
      rw [walkLoop_zero, h0]
      simp
  | succ n ih =>
      intro d hf
      by_cases hdL : d < L
      · have hpos : 0 < (L - d) / actual := div_pos (by linarith) ha
        have hcnt1 : 1 ≤ ⌈(L - d) / actual⌉₊ := Nat.ceil_pos.mpr hpos
        have hrec : ⌈(L - (d + actual)) / actual⌉₊ = ⌈(L - d) / actual⌉₊ - 1 := by
          rw [show (L - (d + actual)) / actual = (L - d) / actual - ((1 : ℕ) : ℝ) by
            push_cast
            field_simp
            ring]
          rw [natCeil_sub_nat]
        rw [walkLoop_succ, if_pos hdL, ih (d + actual) (by omega)]
        obtain ⟨k, hk⟩ : ∃ k, ⌈(L - d) / actual⌉₊ = k + 1 :=
          ⟨⌈(L - d) / actual⌉₊ - 1, by omega⟩
        rw [hrec, hk]
        simp only [Nat.add_sub_cancel]
        rw [List.range_succ_eq_map, List.map_cons, List.map_map]
        rw [Prod.mk.injEq]
        constructor
        · rw [List.cons.injEq]
          constructor
          · congr 1
            congr 1
            push_cast
            ring
          · refine List.map_congr_left fun j _ => ?_
            simp only [Function.comp_apply]
            congr 1
            congr 1
            push_cast
            ring
        · push_cast
          ring
      · have h0 : ⌈(L - d) / actual⌉₊ = 0 :=
          Nat.ceil_eq_zero.mpr (div_nonpos_of_nonpos_of_nonneg (by linarith) ha.le)
        rw [walkLoop_succ, if_neg hdL, h0]
        simp

lemma walkSegments_spec (actual : ℝ) (ha : 0 < actual) :
    ∀ (segs : List Pt) (segStart : Pt) (d : ℝ) (fuel : ℕ),
      0 ≤ d →
      ⌈(polylineLength (segStart :: segs) - d) / actual⌉₊ ≤ fuel →
      walkSegments actual fuel segStart d segs
        = (List.range ⌈(polylineLength (segStart :: segs) - d) / actual⌉₊).map
            fun j : ℕ => pointAt (segStart :: segs) (d + (j : ℝ) * actual) := by
  intro segs
  induction segs with
  | nil =>
      intro segStart d fuel hd _
      rw [walkSegments_nil, polylineLength_single,
        Nat.ceil_eq_zero.mpr (div_nonpos_of_nonpos_of_nonneg (by linarith) ha.le)]
      simp
  | cons segEnd rest ih =>
      intro segStart d fuel hd hf
      have hL1 : ((segEnd.sub segStart).length) = ptDist segStart segEnd := rfl
      have hR0 : 0 ≤ polylineLength (segEnd :: rest) := polylineLength_nonneg _
      have hd0 : 0 ≤ ptDist segStart segEnd := ptDist_nonneg _ _
      have htot : polylineLength (segStart :: segEnd :: rest)
          = ptDist segStart segEnd + polylineLength (segEnd :: rest) :=
        polylineLength_cons _ _ _
      have hmono : ⌈(ptDist segStart segEnd - d) / actual⌉₊
          ≤ ⌈(polylineLength (segStart :: segEnd :: rest) - d) / actual⌉₊ := by
        apply Nat.ceil_mono
        rw [htot]
        exact (div_le_div_iff_of_pos_right ha).mpr (by linarith)
      have hwl := walkLoop_spec segStart (segEnd.sub segStart).unit actual
        (ptDist segStart segEnd) ha fuel d (le_trans hmono hf)
      have hceil1 := Nat.le_ceil ((ptDist segStart segEnd - d) / actual)
      have hd1 : ptDist segStart segEnd
          ≤ d + (⌈(ptDist segStart segEnd - d) / actual⌉₊ : ℝ) * actual := by
        have h2 : ptDist segStart segEnd - d
            ≤ (⌈(ptDist segStart segEnd - d) / actual⌉₊ : ℝ) * actual :=
          (div_le_iff₀ ha).mp hceil1
        linarith
      have hsplit : ⌈(polylineLength (segEnd :: rest)
            - (d + (⌈(ptDist segStart segEnd - d) / actual⌉₊ : ℝ) * actual
              - ptDist segStart segEnd)) / actual⌉₊
          = ⌈(polylineLength (segStart :: segEnd :: rest) - d) / actual⌉₊
            - ⌈(ptDist segStart segEnd - d) / actual⌉₊ := by
        rw [htot]
        rw [show (polylineLength (segEnd :: rest)
              - (d + (⌈(ptDist segStart segEnd - d) / actual⌉₊ : ℝ) * actual
                - ptDist segStart segEnd)) / actual
            = (ptDist segStart segEnd + polylineLength (segEnd :: rest) - d) / actual
              - ((⌈(ptDist segStart segEnd - d) / actual⌉₊ : ℕ) : ℝ) by
          field_simp
          ring]
        rw [natCeil_sub_nat]
      rw [walkSegments_cons, hL1, hwl]
      rw [ih segEnd
        (d + (⌈(ptDist segStart segEnd - d) / actual⌉₊ : ℝ) * actual - ptDist segStart segEnd)
        fuel (by linarith) (by rw [hsplit]; omega)]
      rw [hsplit]
      rw [show ⌈(polylineLength (segStart :: segEnd :: rest) - d) / actual⌉₊
          = ⌈(ptDist segStart segEnd - d) / actual⌉₊
            + (⌈(polylineLength (segStart :: segEnd :: rest) - d) / actual⌉₊
              - ⌈(ptDist segStart segEnd - d) / actual⌉₊) by omega]
      rw [List.range_add, List.map_append, List.map_map]
      congr 1
      · refine List.map_congr_left fun j hj => ?_
        rw [List.mem_range] at hj
        have hjlt : d + (j : ℝ) * actual < ptDist segStart segEnd := by
          have h1 : (j : ℝ) < (ptDist segStart segEnd - d) / actual := Nat.lt_ceil.mp hj
          have h2 : (j : ℝ) * actual < ptDist segStart segEnd - d := (lt_div_iff₀ ha).mp h1
          linarith
        rw [pointAt, if_pos hjlt.le]
      · rw [Nat.add_sub_cancel_left]
        refine List.map_congr_left fun j hj => ?_
        simp only [Function.comp_apply]
        have hsge : ptDist segStart segEnd
            ≤ d + ((⌈(ptDist segStart segEnd - d) / actual⌉₊ + j : ℕ) : ℝ) * actual := by
          have hja : (0 : ℝ) ≤ (j : ℝ) * actual := by positivity
          push_cast
          rw [add_mul]
          linarith
        rw [pointAt_shift segStart segEnd rest hsge]
        congr 1
        push_cast
        ring

/-- C4: when a section is longer than the (positive) stitch length, the
walk over that section emits exactly the points at arc-length positions
`k * actual_stitch_length` for `k = 1 .. num_stitches - 1` along the
section (`num_stitches = ceil(section_length / stitch_length)`,
`actual_stitch_length = section_length / num_stitches`).  Moreover
`num_stitches * actual_stitch_length = section_length`, so together with
the section's endpoints (at positions `0` and `section_length`) every
consecutive pair of points of the section is separated along the path by
exactly `actual_stitch_length`, and `actual_stitch_length ≤ stitch_length`. -/
theorem running_stitch_uniform_spacing (p0 : Pt) (rest : List Pt) (stitchLength : ℝ)
    (fuel : ℕ) (hpos : 0 < stitchLength)
    (hlong : stitchLength < polylineLength (p0 :: rest))
    (hfuel : (⌈polylineLength (p0 :: rest) / stitchLength⌉).toNat - 1 ≤ fuel) :
    walkSegments (polylineLength (p0 :: rest)
        / ((⌈polylineLength (p0 :: rest) / stitchLength⌉ : ℤ) : ℝ)) fuel p0
      (polylineLength (p0 :: rest)
        / ((⌈polylineLength (p0 :: rest) / stitchLength⌉ : ℤ) : ℝ)) rest
      = (List.range' 1 ((⌈polylineLength (p0 :: rest) / stitchLength⌉).toNat - 1)).map
          (fun k : ℕ => pointAt (p0 :: rest)
            ((k : ℝ) * (polylineLength (p0 :: rest)
              / ((⌈polylineLength (p0 :: rest) / stitchLength⌉ : ℤ) : ℝ))))
    ∧ ((⌈polylineLength (p0 :: rest) / stitchLength⌉ : ℤ) : ℝ)
        * (polylineLength (p0 :: rest)
            / ((⌈polylineLength (p0 :: rest) / stitchLength⌉ : ℤ) : ℝ))
        = polylineLength (p0 :: rest)
    ∧ polylineLength (p0 :: rest)
        / ((⌈polylineLength (p0 :: rest) / stitchLength⌉ : ℤ) : ℝ) ≤ stitchLength := by
  have hL : 0 < polylineLength (p0 :: rest) := lt_trans hpos hlong
  have hq : 1 < polylineLength (p0 :: rest) / stitchLength := (one_lt_div hpos).mpr hlong
  have hn2 : 2 ≤ ⌈polylineLength (p0 :: rest) / stitchLength⌉ := by
    have h1 : (1 : ℤ) < ⌈polylineLength (p0 :: rest) / stitchLength⌉ := by
      rw [Int.lt_ceil]
      push_cast
      exact hq
    omega
  have hnR : (0 : ℝ) < ((⌈polylineLength (p0 :: rest) / stitchLength⌉ : ℤ) : ℝ) := by
    exact_mod_cast (by omega : (0 : ℤ) < ⌈polylineLength (p0 :: rest) / stitchLength⌉)
  have hact : 0 < polylineLength (p0 :: rest)
      / ((⌈polylineLength (p0 :: rest) / stitchLength⌉ : ℤ) : ℝ) := div_pos hL hnR
  have hprod : ((⌈polylineLength (p0 :: rest) / stitchLength⌉ : ℤ) : ℝ)
      * (polylineLength (p0 :: rest)
          / ((⌈polylineLength (p0 :: rest) / stitchLength⌉ : ℤ) : ℝ))
      = polylineLength (p0 :: rest) := by
    rw [mul_comm, div_mul_cancel₀ _ hnR.ne']
  have hle : polylineLength (p0 :: rest)
      / ((⌈polylineLength (p0 :: rest) / stitchLength⌉ : ℤ) : ℝ) ≤ stitchLength := by
    rw [div_le_iff₀ hnR]
    have h1 : polylineLength (p0 :: rest) / stitchLength
        ≤ ((⌈polylineLength (p0 :: rest) / stitchLength⌉ : ℤ) : ℝ) := Int.le_ceil _
    rw [div_le_iff₀ hpos] at h1
    rw [mul_comm]
    exact h1
  have hnt : (((⌈polylineLength (p0 :: rest) / stitchLength⌉).toNat : ℕ) : ℝ)
      = ((⌈polylineLength (p0 :: rest) / stitchLength⌉ : ℤ) : ℝ) := by
    exact_mod_cast congrArg (Int.cast : ℤ → ℝ)
      (Int.toNat_of_nonneg (by omega : (0 : ℤ) ≤ ⌈polylineLength (p0 :: rest) / stitchLength⌉))
  have htoNat2 : 2 ≤ (⌈polylineLength (p0 :: rest) / stitchLength⌉).toNat := by omega
  have hLact : polylineLength (p0 :: rest)
      / (polylineLength (p0 :: rest)
          / ((⌈polylineLength (p0 :: rest) / stitchLength⌉ : ℤ) : ℝ))
      = ((⌈polylineLength (p0 :: rest) / stitchLength⌉ : ℤ) : ℝ) := by
    rw [div_div_eq_mul_div, mul_comm, mul_div_assoc, div_self hL.ne', mul_one]
  have hcnt : ⌈(polylineLength (p0 :: rest)
        - polylineLength (p0 :: rest)
            / ((⌈polylineLength (p0 :: rest) / stitchLength⌉ : ℤ) : ℝ))
      / (polylineLength (p0 :: rest)
          / ((⌈polylineLength (p0 :: rest) / stitchLength⌉ : ℤ) : ℝ))⌉₊
      = (⌈polylineLength (p0 :: rest) / stitchLength⌉).toNat - 1 := by
    rw [sub_div, hLact, div_self hact.ne']
    rw [show ((⌈polylineLength (p0 :: rest) / stitchLength⌉ : ℤ) : ℝ) - 1
        = (((⌈polylineLength (p0 :: rest) / stitchLength⌉).toNat - 1 : ℕ) : ℝ) by
      rw [Nat.cast_sub (by omega), hnt]
      norm_num]
    rw [Nat.ceil_natCast]
  refine ⟨?_, hprod, hle⟩
  rw [walkSegments_spec _ hact rest p0 _ _ hact.le (by rw [hcnt]; exact hfuel)]
  rw [hcnt]
  rw [List.range'_eq_map_range]
  rw [List.map_map]
  refine List.map_congr_left fun j _ => ?_
  simp only [Function.comp_apply]
  congr 1
  push_cast
  ring

/-- Witness for C4 at a concrete input: the section from `(0,0)` to `(2,0)`
(length `2`) with stitch length `3/2` gives `num_stitches = 2` and a single
interior stitch at position `1` (spacing `1 ≤ 3/2`). -/
theorem running_stitch_uniform_spacing_witness :
    (0 : ℝ) < 3 / 2 ∧ (3 : ℝ) / 2 < polylineLength [⟨0, 0⟩, ⟨2, 0⟩] ∧
      (⌈polylineLength [⟨0, 0⟩, ⟨2, 0⟩] / (3 / 2 : ℝ)⌉).toNat - 1 ≤ 2 ∧
      (walkSegments (polylineLength [⟨0, 0⟩, ⟨2, 0⟩]
          / ((⌈polylineLength [⟨0, 0⟩, ⟨2, 0⟩] / (3 / 2 : ℝ)⌉ : ℤ) : ℝ)) 2 ⟨0, 0⟩
        (polylineLength [⟨0, 0⟩, ⟨2, 0⟩]
          / ((⌈polylineLength [⟨0, 0⟩, ⟨2, 0⟩] / (3 / 2 : ℝ)⌉ : ℤ) : ℝ)) [⟨2, 0⟩]
        = (List.range' 1 ((⌈polylineLength [⟨0, 0⟩, ⟨2, 0⟩] / (3 / 2 : ℝ)⌉).toNat - 1)).map
            (fun k : ℕ => pointAt [⟨0, 0⟩, ⟨2, 0⟩]
              ((k : ℝ) * (polylineLength [⟨0, 0⟩, ⟨2, 0⟩]
                / ((⌈polylineLength [⟨0, 0⟩, ⟨2, 0⟩] / (3 / 2 : ℝ)⌉ : ℤ) : ℝ))))
      ∧ ((⌈polylineLength [⟨0, 0⟩, ⟨2, 0⟩] / (3 / 2 : ℝ)⌉ : ℤ) : ℝ)
          * (polylineLength [⟨0, 0⟩, ⟨2, 0⟩]
              / ((⌈polylineLength [⟨0, 0⟩, ⟨2, 0⟩] / (3 / 2 : ℝ)⌉ : ℤ) : ℝ))
          = polylineLength [⟨0, 0⟩, ⟨2, 0⟩]
      ∧ polylineLength [⟨0, 0⟩, ⟨2, 0⟩]
          / ((⌈polylineLength [⟨0, 0⟩, ⟨2, 0⟩] / (3 / 2 : ℝ)⌉ : ℤ) : ℝ) ≤ 3 / 2) := by
  have hd2 : ptDist ⟨0, 0⟩ ⟨2, 0⟩ = 2 := by
    simp only [ptDist, Pt.sub, Pt.length]
    rw [show ((2 : ℝ) - 0) ^ 2 + ((0 : ℝ) - 0) ^ 2 = 2 ^ 2 by norm_num]
    exact Real.sqrt_sq (by norm_num)
  have hlen2 : polylineLength [⟨0, 0⟩, ⟨2, 0⟩] = 2 := by
    rw [polylineLength_cons, polylineLength_single, hd2]
    ring
  have hc : (⌈polylineLength [⟨0, 0⟩, ⟨2, 0⟩] / (3 / 2 : ℝ)⌉ : ℤ) = 2 := by
    rw [hlen2]
    rw [show (2 : ℝ) / (3 / 2) = 4 / 3 by norm_num]
    rw [Int.ceil_eq_iff]
    constructor <;> norm_num
  exact ⟨by norm_num, by rw [hlen2]; norm_num, by rw [hc]; norm_num,
    running_stitch_uniform_spacing ⟨0, 0⟩ [⟨2, 0⟩] (3 / 2) 2 (by norm_num)
      (by rw [hlen2]; norm_num) (by rw [hc]; norm_num)⟩
